import Mathlib

set_option maxRecDepth 4000

/-! Verification of the helper layer of a minio S3 client library
(src/minio/helpers.py and src/minio/error.py) against its natural-language
specification.  Python strings are modelled as `List Char`, byte streams as
`List Nat` (one entry per byte), and fallible functions return `Except PyErr`.
The module src/minio/compat.py is referenced by the source but is not part of
the visible sources; the functions it re-exports (`urlsplit`, `urlencode`) are
modelled from the spec where noted. -/

/-- Error values raised by the helpers module: the typed errors of
src/minio/error.py together with the Python built-in errors the module can
raise (`ValueError` from `is_non_empty_string`, `NameError` for an unbound
global name). -/
inductive PyErr where
  | invalidBucket
  | invalidEndpoint
  | valueError
  | nameError (n : String)
deriving DecidableEq

deriving instance DecidableEq for Except

/-- ASCII character class `[A-Z]`. -/
def isAsciiUpper (c : Char) : Bool := decide ('A' ≤ c ∧ c ≤ 'Z')

/-- ASCII character class `[a-z]`. -/
def isAsciiLower (c : Char) : Bool := decide ('a' ≤ c ∧ c ≤ 'z')

/-- ASCII character class `[A-Za-z]`. -/
def isAsciiAlpha (c : Char) : Bool := isAsciiUpper c || isAsciiLower c

/-- ASCII character class `[0-9]`. -/
def isAsciiDigit (c : Char) : Bool := decide ('0' ≤ c ∧ c ≤ '9')

/-- ASCII character class `[A-Za-z0-9]`. -/
def isAsciiAlnum (c : Char) : Bool := isAsciiAlpha c || isAsciiDigit c

/-- Character class `[A-Z\d-]` under `re.IGNORECASE`, used by the hostname
pattern of `is_valid_endpoint` (helpers.py line 134). -/
def validLabelChar (c : Char) : Bool := isAsciiAlnum c || c = '-'

/-- Tests whether `s` begins with `pat`. -/
def listStartsWith : List Char → List Char → Bool
  | _, [] => true
  | [], _ :: _ => false
  | a :: as, b :: bs => a = b && listStartsWith as bs

/-- Python's substring test `pat in s` on strings. -/
def containsSub : List Char → List Char → Bool
  | [], pat => listStartsWith [] pat
  | c :: t, pat => listStartsWith (c :: t) pat || containsSub t pat

/-- Python's `s.endswith(pat)` on strings. -/
def listEndsWith (s pat : List Char) : Bool := listStartsWith s.reverse pat.reverse

/-- Splits a string at every `'.'` character; `"a.b"` gives `["a", "b"]`,
the empty string gives `[""]`. -/
def splitOnDotL : List Char → List (List Char)
  | [] => [[]]
  | c :: t =>
    if c = '.' then [] :: splitOnDotL t
    else
      match splitOnDotL t with
      | [] => [[c]]
      | g :: gs => (c :: g) :: gs

/-- Joins strings with `'.'` separators; left inverse of `splitOnDotL` on
dot-free pieces. -/
def joinDots : List (List Char) → List Char
  | [] => []
  | [l] => l
  | l :: l2 :: ls => l ++ '.' :: joinDots (l2 :: ls)

/-- Lexicographic order on strings by code point, as Python compares `str`
values when sorting. -/
def lexLe : List Char → List Char → Bool
  | [], _ => true
  | _ :: _, [] => false
  | a :: as, b :: bs => if a < b then true else if b < a then false else lexLe as bs

/-- Query mapping entry: key and optional value, one item of the Python dict
passed as `query`. -/
abbrev QItem := List Char × Option (List Char)

/-- Comparison of query items by key, the effective order of
`sorted(query.items())` on a dict (helpers.py line 95): dict keys are unique,
so the tuple comparison never reaches the values. -/
def qLe (x y : QItem) : Bool := lexLe x.1 y.1

/-- Insertion step of the sort modelling `sorted(query.items())`. -/
def insertQ (x : QItem) : List QItem → List QItem
  | [] => [x]
  | y :: ys => if qLe x y then x :: y :: ys else y :: insertQ x ys

/-- Sort modelling `sorted(query.items())` (helpers.py line 95): on lists with
pairwise-distinct keys it agrees with any sort by key. -/
def sortQ : List QItem → List QItem
  | [] => []
  | x :: xs => insertQ x (sortQ xs)

/-- Hexadecimal digit characters used by percent-escapes. -/
def hexDigit (n : Nat) : Char := if n < 10 then Char.ofNat (48 + n) else Char.ofNat (55 + n)

/-- Percent-escape of one character as `%XX` with uppercase hex. -/
def percentEncodeChar (c : Char) : List Char :=
  '%' :: hexDigit (c.toNat / 16) :: [hexDigit (c.toNat % 16)]

/-- Characters left intact by percent-encoding: the unreserved set. -/
def isUrlSafe (c : Char) : Bool :=
  isAsciiAlnum c || c = '-' || c = '_' || c = '.' || c = '~'

/-- Modelled from the spec: `urlencode` is re-exported by the missing
src/minio/compat.py.  Per the spec it percent-encodes a string for URL
embedding, encoding `'/'` as `%2F` (section 8 example: `a/b.txt` becomes
`a%2Fb.txt`); characters outside the unreserved set are escaped. -/
def urlencode (s : List Char) : List Char :=
  (s.map fun c => if isUrlSafe c then [c] else percentEncodeChar c).flatten

/-- Python whitespace stripped by `str.strip()`. -/
def isPySpace (c : Char) : Bool :=
  c = ' ' || c = '\t' || c = '\n' || c = '\r' || c = Char.ofNat 11 || c = Char.ofNat 12

/-- Python's `s.strip()`: drop whitespace from both ends. -/
def pyStrip (s : List Char) : List Char :=
  ((s.dropWhile isPySpace).reverse.dropWhile isPySpace).reverse

/-- Model of `is_non_empty_string` (helpers.py lines 172-184) on string input:
raises `ValueError` when the string is empty after stripping.  The
`isinstance` check for non-string input is carried by the Lean type. -/
def is_non_empty_string (input_string : List Char) : Except PyErr Bool :=
  if pyStrip input_string = [] then Except.error PyErr.valueError
  else Except.ok true

/-- Model of `encode_object_name` (helpers.py lines 186-194). -/
def encode_object_name (object_name : List Char) : Except PyErr (List Char) :=
  match is_non_empty_string object_name with
  | Except.error e => Except.error e
  | Except.ok _ => Except.ok (urlencode object_name)

/-- Scheme and network location of a split URL. -/
structure UrlParts where
  scheme : List Char
  netloc : List Char

/-- Characters ending the network-location portion of a URL. -/
def netlocChar (c : Char) : Bool := !(c = '/' || c = '?' || c = '#')

/-- Accumulating worker for `urlsplit`: scans for the first `"://"`. -/
def urlsplitGo : List Char → List Char → UrlParts
  | _, ':' :: '/' :: '/' :: rest => UrlParts.mk [] (rest.takeWhile netlocChar)
  | acc, c :: rest => urlsplitGo (acc ++ [c]) rest
  | _, [] => UrlParts.mk [] []

/-- Modelled from the spec: `urlsplit` is re-exported by the missing
src/minio/compat.py.  For an endpoint of the spec's shape
`scheme://host[:port]` it yields the text before the first `"://"` as the
scheme and the text after it, up to the first `/`, `?` or `#`, as the network
location; with no `"://"` both components are empty. -/
def urlsplit (endpoint : List Char) : UrlParts :=
  UrlParts.mk (endpoint.takeWhile (fun c => !(c = ':')))
    (urlsplitGo [] endpoint).netloc

/-- Drops a `userinfo@` portion from a network location, keeping the part
after the last `'@'`. -/
def dropUserinfo (netloc : List Char) : List Char :=
  (netloc.reverse.takeWhile (fun c => !(c = '@'))).reverse

/-- Drops a `:port` portion from a host. -/
def stripPort (h : List Char) : List Char := h.takeWhile (fun c => !(c = ':'))

/-- ASCII lowercasing of one character. -/
def lowerChar (c : Char) : Char := if isAsciiUpper c then Char.ofNat (c.toNat + 32) else c

/-- Modelled from the spec: the `hostname` attribute of the missing compat
module's `urlsplit` result — the network location without userinfo or port,
lowercased, or `none` when empty ("host is absent"). -/
def hostnameOf (endpoint : List Char) : Option (List Char) :=
  match (stripPort (dropUserinfo (urlsplit endpoint).netloc)).map lowerChar with
  | [] => none
  | c :: t => some (c :: t)

/-- Literal `"amazonaws.com"` from helpers.py lines 81 and 139. -/
def amazonSuffix : List Char := "amazonaws.com".data

/-- Canonical AWS host allowed by `is_valid_endpoint` (helpers.py line 139). -/
def s3Host : List Char := "s3.amazonaws.com".data

/-- Scheme separator `"://"`. -/
def schemeSep : List Char := "://".data

/-- Rendering of one query item (helpers.py lines 97-103): `key` alone for a
`None` value, otherwise `key=urlencode(value)` with `'/'` further replaced by
`%2F`. -/
def renderQueryItem (kv : QItem) : List Char :=
  match kv.2 with
  | none => kv.1
  | some v =>
    kv.1 ++ '=' ::
      ((urlencode v).map fun c => if c = '/' then '%' :: '2' :: ['F'] else [c]).flatten

/-- Joining of query components with `'&'` (helpers.py line 105). -/
def joinAmp : List (List Char) → List Char
  | [] => []
  | [x] => x
  | x :: y :: ys => x ++ '&' :: joinAmp (y :: ys)

/-- Query portion of the target URL (helpers.py lines 94-108): sort the dict
items by key, render each, join with `'&'`, and prepend `'?'` when the result
is non-empty. -/
def queryStringOf (q : List QItem) : List Char :=
  match joinAmp ((sortQ q).map renderQueryItem) with
  | [] => []
  | c :: t => '?' :: c :: t

/-- Base URL chosen by `get_target_url` (helpers.py lines 76-84):
virtual-hosted style `scheme://bucket.netloc` when the network location
contains the substring `amazonaws.com`, path style `scheme://netloc/bucket`
otherwise, and plain `scheme://netloc` without a bucket. -/
def targetBase (endpoint : List Char) (bucket_name : Option (List Char)) : List Char :=
  match bucket_name with
  | none => (urlsplit endpoint).scheme ++ schemeSep ++ (urlsplit endpoint).netloc
  | some bn =>
    if containsSub (urlsplit endpoint).netloc amazonSuffix then
      (urlsplit endpoint).scheme ++ schemeSep ++ bn ++ '.' :: (urlsplit endpoint).netloc
    else
      (urlsplit endpoint).scheme ++ schemeSep ++ (urlsplit endpoint).netloc ++ '/' :: bn

/-- Query portion for an optional query dict: empty when no dict was given
(helpers.py line 94). -/
def queryPartOf : Option (List QItem) → List Char
  | none => []
  | some qd => queryStringOf qd

/-- Model of `get_target_url` (helpers.py lines 66-110): base URL, a `'/'`
separator, the percent-encoded object name when present (which can raise via
`encode_object_name`), and the sorted query string. -/
def get_target_url (endpoint : List Char) (bucket_name : Option (List Char))
    (object_name : Option (List Char)) (query : Option (List QItem)) :
    Except PyErr (List Char) :=
  match object_name with
  | none =>
    Except.ok (targetBase endpoint bucket_name ++ '/' :: queryPartOf query)
  | some objName =>
    match encode_object_name objName with
    | Except.error e => Except.error e
    | Except.ok enc =>
      Except.ok (targetBase endpoint bucket_name ++ '/' :: (enc ++ queryPartOf query))

/-- Full match of the bucket pattern `^[a-zA-Z][a-zA-Z0-9\-]+[a-zA-Z0-9]$`
(helpers.py line 158): a leading ASCII letter, one or more characters of
`[A-Za-z0-9-]`, and a final alphanumeric character.  The anchor `$` is
modelled as true end of string; together with the source's
`match.end() != len(bucket_name)` guard this is the acceptance condition of
the source's check. -/
def bucketFullMatch : List Char → Bool
  | [] => false
  | c :: rest =>
    isAsciiAlpha c && decide (2 ≤ rest.length) &&
      rest.dropLast.all validLabelChar &&
      (match rest.getLast? with | some d => isAsciiAlnum d | none => false)

/-- Model of `is_valid_bucket_name` (helpers.py lines 144-170): reject names
containing `'.'`, names of length outside `[3, 63]`, and names that do not
fully match the bucket pattern. -/
def is_valid_bucket_name (bucket_name : List Char) : Except PyErr Bool :=
  if bucket_name.contains '.' then Except.error PyErr.invalidBucket
  else if bucket_name.length < 3 || 63 < bucket_name.length then Except.error PyErr.invalidBucket
  else if !bucketFullMatch bucket_name then Except.error PyErr.invalidBucket
  else Except.ok true

/-- One label of the hostname pattern
`^((?!-)[A-Z\d-]{1,63}(?<!-)\.)*((?!-)[A-Z\d-]{1,63}(?<!-))$` with
`re.IGNORECASE` (helpers.py lines 133-135): 1 to 63 characters of `[A-Za-z0-9-]`,
neither starting nor ending with `'-'`. -/
def validLabel (l : List Char) : Bool :=
  decide (1 ≤ l.length) && decide (l.length ≤ 63) && l.all validLabelChar &&
    (match l.head? with | some c => !(c = '-') | none => false) &&
    (match l.getLast? with | some c => !(c = '-') | none => false)

/-- Full match of the hostname pattern against the entire string: every
dot-separated label is valid. -/
def hostLabelsMatch (h : List Char) : Bool := (splitOnDotL h).all validLabel

/-- Truthiness of `allowed.match(hostname)` (helpers.py line 136).  The call
has no `match.end()` guard — unlike the bucket check of line 167 — and
Python's `$` anchor also matches just before one trailing newline, so the
source accepts a pattern-matching core followed by a single `'\n'` in
addition to full matches. -/
def hostPatternMatch (h : List Char) : Bool :=
  hostLabelsMatch h ||
    (decide (h.getLast? = some '\n') && hostLabelsMatch h.dropLast)

/-- Stripping of one trailing dot (helpers.py lines 131-132). -/
def stripTrailingDot (h : List Char) : List Char :=
  if h.getLast? = some '.' then h.dropLast else h

/-- Checks of `is_valid_endpoint` on the parsed hostname (helpers.py lines
128-142): at most 255 characters, strip one trailing dot, test
`allowed.match` truthiness, and reject hosts ending in `amazonaws.com` other
than exactly `s3.amazonaws.com`. -/
def is_valid_hostname (hostname : List Char) : Except PyErr Bool :=
  if 255 < hostname.length then Except.error PyErr.invalidEndpoint
  else
    if !hostPatternMatch (stripTrailingDot hostname) then Except.error PyErr.invalidEndpoint
    else
      if listEndsWith (stripTrailingDot hostname) amazonSuffix &&
          !decide (stripTrailingDot hostname = s3Host) then Except.error PyErr.invalidEndpoint
      else Except.ok true

/-- Model of `is_valid_endpoint` (helpers.py lines 112-142): parse the
hostname — absent hostnames are rejected — and run the hostname checks. -/
def is_valid_endpoint (endpoint : List Char) : Except PyErr Bool :=
  match hostnameOf endpoint with
  | none => Except.error PyErr.invalidEndpoint
  | some hostname => is_valid_hostname hostname

/-- Endpoint whose parsed hostname carries one trailing newline. -/
def newlineEndpoint : List Char := "https://abc\n".data

/-- Hostname parsed from `newlineEndpoint`. -/
def newlineHost : List Char := "abc\n".data

/-- Minimum part size, 5 MiB (helpers.py line 247). -/
def minimum_part_size : ℚ := 5242880

/-- Maximum part size, 5 GiB (helpers.py line 248). -/
def maximum_part_size : ℚ := 5368709120

/-- Model of `calculate_part_size` (helpers.py lines 240-254).  Python's `/`
on the length is modelled as exact rational division; every comparison of the
claims is preserved by this reading, and under Python 2 floor division the
stated properties hold as well. -/
def calculate_part_size (length : ℚ) : ℚ :=
  if length = -1 then maximum_part_size
  else if length / 9999 > maximum_part_size then maximum_part_size
  else max minimum_part_size (length / 9999)

/-- Names bound at module level of src/minio/helpers.py: the imports of lines
20-26 and the module's top-level definitions.  `tempfile` is not among them,
although line 51 of `parts_manager` refers to it. -/
def helpersGlobals : List String :=
  [r"collections", r"binascii", r"hashlib", r"re",
   r"urlsplit", r"basestring", r"urlencode",
   r"InvalidBucketError", r"InvalidEndpointError",
   r"PartMetadata", r"parts_manager", r"get_target_url",
   r"is_valid_endpoint", r"is_valid_bucket_name", r"is_non_empty_string",
   r"encode_object_name", r"get_sha256", r"get_md5",
   r"encode_to_base64", r"encode_to_hex", r"calculate_part_size"]

/-- Name referenced by helpers.py line 51 but never imported. -/
def tempfileName : String := "tempfile"

/-- Model of the source's `PartMetadata` (helpers.py lines 28-41).  A hashlib
digest is a function of exactly the bytes fed to the hasher, so the model
carries those byte sequences: `md5digest` and `sha256digest` hold the bytes
folded into the respective hasher state, and `data` holds the bytes written to
the temporary file. -/
structure PartMetadata where
  data : List Nat
  md5digest : List Nat
  sha256digest : List Nat
  size : Nat
deriving DecidableEq

/-- Result of one `parts_manager` call: the part produced and the stream
bytes not yet consumed (the shared stream cursor). -/
structure PartResult where
  part : PartMetadata
  remaining : List Nat
deriving DecidableEq

/-- Read loop of `parts_manager` (helpers.py lines 54-62): while fewer than
`part_size` bytes were read, read up to 1024 bytes; stop on an empty read;
write each chunk to the temporary file and fold it into both hasher states.
The fuel argument only bounds the number of iterations: each iteration
consumes at least one byte, so any fuel at least the stream length yields the
loop's result (when fuel runs out the stream is already empty, and the
fallback returns exactly what the empty-read branch would). -/
def partsLoopFuel (fuel : Nat) (stream : List Nat) (part_size total_read : Nat)
    (tmpdata md5fed shafed : List Nat) : PartResult :=
  match fuel with
  | 0 => PartResult.mk (PartMetadata.mk tmpdata md5fed shafed total_read) stream
  | fuel' + 1 =>
    if total_read < part_size then
      match stream with
      | [] => PartResult.mk (PartMetadata.mk tmpdata md5fed shafed total_read) []
      | c :: rest =>
        partsLoopFuel fuel' ((c :: rest).drop 1024) part_size
          (total_read + ((c :: rest).take 1024).length)
          (tmpdata ++ (c :: rest).take 1024)
          (md5fed ++ (c :: rest).take 1024)
          (shafed ++ (c :: rest).take 1024)
    else PartResult.mk (PartMetadata.mk tmpdata md5fed shafed total_read) stream

/-- Body of `parts_manager` after line 51 (helpers.py lines 52-64): fresh
hasher states and an empty temporary file, then the read loop. -/
def parts_manager_loop (s : List Nat) (part_size : Nat) : PartResult :=
  partsLoopFuel s.length s part_size 0 [] [] []

/-- Model of `parts_manager` (helpers.py lines 43-64) including Python name
resolution for line 51: the global `tempfile` is looked up before anything is
read, and an unbound name raises `NameError`.  The pair carries the stream
cursor after the call next to the Python return value. -/
def parts_manager (s : List Nat) (part_size : Nat) : List Nat × Except PyErr PartMetadata :=
  if helpersGlobals.contains tempfileName then
    ((parts_manager_loop s part_size).remaining,
      Except.ok (parts_manager_loop s part_size).part)
  else (s, Except.error (PyErr.nameError tempfileName))

/-- Worker for `partsAll` with explicit call-count fuel. -/
def partsAllFuel : Nat → List Nat → Nat → List PartMetadata
  | 0, _, _ => []
  | fuel + 1, s, p =>
    if (parts_manager_loop s p).part.size = 0 then [(parts_manager_loop s p).part]
    else (parts_manager_loop s p).part :: partsAllFuel fuel (parts_manager_loop s p).remaining p

/-- Driver of the protocol the spec describes for the splitter: call the
loop body repeatedly until a part of size 0 is returned, collecting the
parts in yield order.  Fuel `s.length + 1` bounds the number of calls: every
part except the last consumes at least one byte of the stream. -/
def partsAll (s : List Nat) (p : Nat) : List PartMetadata :=
  partsAllFuel (s.length + 1) s p

/-- Taking a chunk and then `k` more elements equals taking their combined
length, for `k` within the rest. -/
theorem take_len_add (l : List Nat) (n k : Nat) (hk : k ≤ (l.drop n).length) :
    l.take ((l.take n).length + k) = l.take n ++ (l.drop n).take k := by
  by_cases h : n ≤ l.length
  · have hlen : (l.take n).length = n := by
      rw [List.length_take]; omega
    rw [hlen, List.take_add]
  · have hd : l.drop n = [] := List.drop_eq_nil_of_le (by omega)
    have hk0 : k = 0 := by
      rw [hd] at hk; simpa using hk
    subst hk0
    have hlen : (l.take n).length = l.length := by
      rw [List.length_take]; omega
    rw [hlen, hd, List.take_of_length_le (by omega : l.length ≤ n)]
    simp [List.take_of_length_le]

/-- Dropping a chunk's length plus `k` equals dropping the chunk and then
`k` more elements. -/
theorem drop_len_add (l : List Nat) (n k : Nat) :
    l.drop ((l.take n).length + k) = (l.drop n).drop k := by
  rw [List.drop_drop]
  by_cases h : n ≤ l.length
  · have hlen : (l.take n).length = n := by
      rw [List.length_take]; omega
    rw [hlen]
  · have hlen : (l.take n).length = l.length := by
      rw [List.length_take]; omega
    rw [hlen, List.drop_eq_nil_of_le (by omega), List.drop_eq_nil_of_le (by omega)]

/-- Invariant of the read loop (helpers.py lines 54-62), for any fuel at
least the stream length: some `k ≤ stream.length` bytes are consumed; they
are appended to the temporary file and to both hasher feeds and counted into
the returned size; the loop stops short of `part_size` only when it has
exhausted the stream; a call already at or past `part_size` consumes nothing;
the size overshoots `part_size` by less than one 1 KiB read; and it does not
overshoot at all when `part_size` is a multiple of the 1024-byte read size. -/
theorem partsLoopFuel_spec (fuel : Nat) :
    ∀ (stream : List Nat) (part_size total_read : Nat) (tmpdata md5fed shafed : List Nat),
    stream.length ≤ fuel →
    ∃ k, k ≤ stream.length ∧
      partsLoopFuel fuel stream part_size total_read tmpdata md5fed shafed =
        PartResult.mk (PartMetadata.mk (tmpdata ++ stream.take k) (md5fed ++ stream.take k)
          (shafed ++ stream.take k) (total_read + k)) (stream.drop k) ∧
      (total_read + k < part_size → stream.drop k = []) ∧
      (¬ total_read < part_size → k = 0) ∧
      (total_read < part_size + 1024 → total_read + k < part_size + 1024) ∧
      (1024 ∣ part_size → 1024 ∣ total_read → total_read < part_size →
        total_read + k ≤ part_size) := by
  induction fuel with
  | zero =>
    intro stream p t tmp m sh hlen
    have hs : stream = [] := List.eq_nil_of_length_eq_zero (Nat.le_zero.mp hlen)
    subst hs
    exact ⟨0, by simp, by simp [partsLoopFuel], by simp, fun _ => rfl, by omega, by omega⟩
  | succ fuel ih =>
    intro stream p t tmp m sh hlen
    by_cases ht : t < p
    · cases stream with
      | nil =>
        exact ⟨0, by simp, by simp [partsLoopFuel, ht], by simp, fun h => absurd ht h,
          by omega, by omega⟩
      | cons c rest =>
        have hlen' : ((c :: rest).drop 1024).length ≤ fuel := by
          rw [List.length_drop]
          simp only [List.length_cons] at hlen ⊢
          omega
        obtain ⟨k', hk'le, heq, hshort, hstop, hbound, hdvd⟩ :=
          ih ((c :: rest).drop 1024) p (t + ((c :: rest).take 1024).length)
            (tmp ++ (c :: rest).take 1024) (m ++ (c :: rest).take 1024)
            (sh ++ (c :: rest).take 1024) hlen'
        have hclen : ((c :: rest).take 1024).length = min 1024 (c :: rest).length :=
          List.length_take 1024 (c :: rest)
        have hdlen : ((c :: rest).drop 1024).length = (c :: rest).length - 1024 :=
          List.length_drop 1024 (c :: rest)
        have htake := take_len_add (c :: rest) 1024 k' hk'le
        have hdrop := drop_len_add (c :: rest) 1024 k'
        have hrun : partsLoopFuel (fuel + 1) (c :: rest) p t tmp m sh =
            partsLoopFuel fuel ((c :: rest).drop 1024) p
              (t + ((c :: rest).take 1024).length)
              (tmp ++ (c :: rest).take 1024) (m ++ (c :: rest).take 1024)
              (sh ++ (c :: rest).take 1024) := by
          simp [partsLoopFuel, ht]
        refine ⟨((c :: rest).take 1024).length + k', ?_, ?_, ?_, ?_, ?_, ?_⟩
        · simp only [List.length_cons] at *
          omega
        · rw [hrun, heq, htake, hdrop]
          simp [List.append_assoc, Nat.add_assoc]
        · intro hlt
          rw [hdrop]
          exact hshort (by omega)
        · intro hnot
          exact absurd ht hnot
        · intro hb
          have hc1024 : ((c :: rest).take 1024).length ≤ 1024 := by omega
          have := hbound (by omega)
          omega
        · intro hp1024 ht1024 htp
          have hstep : t + 1024 ≤ p := by omega
          by_cases hfull : 1024 ≤ (c :: rest).length
          · have hc : ((c :: rest).take 1024).length = 1024 := by omega
            rw [hc]
            rw [hc] at hdvd hstop
            by_cases ht' : t + 1024 < p
            · have := hdvd hp1024 (by omega) ht'
              omega
            · have := hstop ht'
              omega
          · have hc : ((c :: rest).take 1024).length = (c :: rest).length := by omega
            have hk'0 : k' = 0 := by omega
            simp only [List.length_cons] at *
            omega
    · exact ⟨0, by simp, by simp [partsLoopFuel, ht], fun h => absurd (by omega : t < p) ht,
        fun _ => rfl, by omega, by omega⟩

/-- Specification of one `parts_manager` loop body call on a fresh state:
`k` bytes are consumed and `k` is the part size; the three byte ranges all
equal the consumed prefix; a part smaller than `part_size` exhausts the
stream; the size stays below `part_size + 1024`, and at most `part_size`
when `part_size` is a multiple of 1024. -/
theorem parts_manager_loop_spec (s : List Nat) (p : Nat) :
    ∃ k, k ≤ s.length ∧
      parts_manager_loop s p =
        PartResult.mk (PartMetadata.mk (s.take k) (s.take k) (s.take k) k) (s.drop k) ∧
      (k < p → s.drop k = []) ∧ (p = 0 → k = 0) ∧ k < p + 1024 ∧ (1024 ∣ p → k ≤ p) := by
  obtain ⟨k, hkle, heq, hshort, hstop, hbound, hdvd⟩ :=
    partsLoopFuel_spec s.length s p 0 [] [] [] (le_refl _)
  refine ⟨k, hkle, ?_, ?_, ?_, ?_, ?_⟩
  · simpa [parts_manager_loop] using heq
  · intro h
    exact hshort (by omega)
  · intro h
    exact hstop (by omega)
  · have := hbound (by omega)
    omega
  · intro hp
    by_cases h0 : p = 0
    · have := hstop (by omega)
      omega
    · have := hdvd hp ⟨0, rfl⟩ (by omega)
      omega

/-- Reconstruction invariant of the repeated-call driver, with explicit fuel:
for a positive part size and fuel above the stream length, the concatenation
of the yielded data ranges is exactly the stream, and whenever a yielded part
is smaller than the part size, the parts up to and including it already cover
the whole stream. -/
theorem partsAllFuel_spec (fuel : Nat) :
    ∀ (s : List Nat) (p : Nat), 1 ≤ p → s.length < fuel →
    ((partsAllFuel fuel s p).map PartMetadata.data).flatten = s ∧
    ∀ i part, (partsAllFuel fuel s p).get? i = some part → part.size < p →
      (((partsAllFuel fuel s p).take (i + 1)).map PartMetadata.data).flatten = s := by
  induction fuel with
  | zero =>
    intro s p hp hlen
    omega
  | succ fuel ih =>
    intro s p hp hlen
    obtain ⟨k, hkle, heq, hshort, hstop, hbound, hdvd⟩ := parts_manager_loop_spec s p
    have hsize : (parts_manager_loop s p).part.size = k := by rw [heq]
    have hdata : (parts_manager_loop s p).part.data = s.take k := by rw [heq]
    have hrem : (parts_manager_loop s p).remaining = s.drop k := by rw [heq]
    by_cases hz : (parts_manager_loop s p).part.size = 0
    · have hk0 : k = 0 := by rw [hsize] at hz; exact hz
      have hsnil : s = [] := by
        have hd := hshort (by omega)
        rw [hk0] at hd
        simpa using hd
      subst hsnil
      have hL : partsAllFuel (fuel + 1) [] p = [(parts_manager_loop [] p).part] := by
        simp [partsAllFuel, hz]
      rw [hL]
      constructor
      · simp [hdata, hk0]
      · intro i part hget hlt
        cases i with
        | zero => simp [hdata, hk0]
        | succ i => simp at hget
    · have hL : partsAllFuel (fuel + 1) s p =
          (parts_manager_loop s p).part ::
            partsAllFuel fuel (parts_manager_loop s p).remaining p := by
        simp [partsAllFuel, hz]
      have hk1 : 1 ≤ k := by
        rcases Nat.eq_zero_or_pos k with h0 | h1
        · exact absurd (by rw [hsize, h0]) hz
        · exact h1
      have hlenrem : (s.drop k).length < fuel := by
        rw [List.length_drop]
        omega
      obtain ⟨ihjoin, ihidx⟩ := ih (s.drop k) p hp hlenrem
      rw [hL]
      constructor
      · simp only [List.map_cons, List.flatten_cons, hdata, hrem, ihjoin]
        exact List.take_append_drop k s
      · intro i part hget hlt
        cases i with
        | zero =>
          rw [List.get?_cons_zero] at hget
          have hpart : part = (parts_manager_loop s p).part := by
            injection hget with h
            exact h.symm
          have hklt : k < p := by
            rw [hpart, hsize] at hlt
            exact hlt
          have hnil := hshort hklt
          have htk : s.take k = s := by
            have h := List.take_append_drop k s
            rw [hnil, List.append_nil] at h
            exact h
          simp [List.take_succ_cons, hdata, htk]
        | succ i =>
          rw [List.get?_cons_succ, hrem] at hget
          have hcover := ihidx i part hget hlt
          simp only [List.take_succ_cons, List.map_cons, List.flatten_cons, hdata, hrem, hcover]
          exact List.take_append_drop k s

/-- C1 (amended): as written, `parts_manager` raises `NameError` before
reading anything (the `tempfile` import is missing), so the splitting
protocol never yields a part; with that import supplied and any part size of
at least one byte, repeatedly calling the loop body until a size-0 part is
returned and concatenating the `data` ranges in yield order reproduces the
stream exactly, and a part with `size < partSize` or `size == 0` appears only
once the stream is fully consumed. -/
theorem partsAll_reconstructs (s : List Nat) (p : Nat) (hp : 1 ≤ p) :
    parts_manager s p = (s, Except.error (PyErr.nameError tempfileName)) ∧
    ((partsAll s p).map PartMetadata.data).flatten = s ∧
    ∀ i part, (partsAll s p).get? i = some part → part.size < p →
      (((partsAll s p).take (i + 1)).map PartMetadata.data).flatten = s := by
  have hcond : ¬ (helpersGlobals.contains tempfileName = true) := by decide
  obtain ⟨hjoin, hidx⟩ := partsAllFuel_spec (s.length + 1) s p hp (by omega)
  refine ⟨?_, hjoin, hidx⟩
  unfold parts_manager
  rw [if_neg hcond]

/-- Witness for the amended C1 theorem at the stream `[3, 4]` with part
size 1: the two yielded parts are `[3, 4]` (size 2) and the final empty part,
and their data concatenation is the stream. -/
theorem partsAll_reconstructs_witness :
    ((partsAll [3, 4] 1).map PartMetadata.data).flatten = [3, 4] :=
  (partsAll_reconstructs [3, 4] 1 (by decide)).2.1

/-- C1 counterexample: at part size 0 (an allowed value under the claim's
unrestricted quantifier) the loop body yields a part of size 0 while the
one-byte stream `[7]` is untouched, so the concatenated data misses the
stream; and `parts_manager` as actually written raises `NameError` and never
yields a part at all. -/
theorem partsAll_zero_part_size_cex :
    parts_manager [7] 0 = ([7], Except.error (PyErr.nameError tempfileName)) ∧
    partsAll [7] 0 = [PartMetadata.mk [] [] [] 0] ∧
    ¬ ((partsAll [7] 0).map PartMetadata.data).flatten = [7] :=
  ⟨rfl, rfl, by decide⟩

/-- C2: evaluation at the failing input — for the empty stream with the
default 5 MiB part size, the code as written raises `NameError` at line 51
before any hasher is constructed, so not even the digest of the empty input
is produced. -/
theorem parts_manager_empty_stream_name_error :
    parts_manager [] 5242880 = ([], Except.error (PyErr.nameError tempfileName)) := rfl

/-- Digest ranges of the loop body (lines 52-64 with the import supplied):
both hasher feeds coincide exactly with the bytes written to the part's data,
for every stream and part size; on the empty stream all ranges are empty and
the size is 0, the hashers receiving the well-defined empty input. -/
theorem parts_manager_loop_digest_ranges (s : List Nat) (p : Nat) :
    (parts_manager_loop s p).part.md5digest = (parts_manager_loop s p).part.data ∧
    (parts_manager_loop s p).part.sha256digest = (parts_manager_loop s p).part.data ∧
    (s = [] → (parts_manager_loop s p).part.data = [] ∧
      (parts_manager_loop s p).part.size = 0) := by
  obtain ⟨k, hkle, heq, _, _, _, _⟩ := parts_manager_loop_spec s p
  rw [heq]
  refine ⟨rfl, rfl, ?_⟩
  intro hs
  subst hs
  exact ⟨by simp, Nat.le_zero.mp (by simpa using hkle)⟩

/-- C3 counterexample: at part size 1 — not a multiple of the 1 KiB read
increment — a two-byte stream produces a part of size 2 > 1 once the
missing tempfile binding is supplied, violating `size ≤ partSize`; and as
actually written the call raises `NameError`, returning no PartMetadata. -/
theorem parts_manager_size_overshoot_cex :
    parts_manager [7, 8] 1 = ([7, 8], Except.error (PyErr.nameError tempfileName)) ∧
    (parts_manager_loop [7, 8] 1).part.size = 2 ∧
    ¬ (parts_manager_loop [7, 8] 1).part.size ≤ 1 :=
  ⟨rfl, rfl, by decide⟩

/-- C3 (amended): the loop body's `size` equals the exact number of bytes
written to `data` (hence `0 ≤ size` trivially); `size` can exceed the
requested part size by up to 1023 bytes, staying below `partSize + 1024`; and
`size ≤ partSize` does hold whenever the part size is a multiple of the
1024-byte read increment, such as the 5 MiB default.  A general part size —
`calculate_part_size` results included — need not be such a multiple, so the
overshoot arises for real computed sizes too. -/
theorem parts_manager_loop_size_bounds (s : List Nat) (p : Nat) :
    (parts_manager_loop s p).part.size = (parts_manager_loop s p).part.data.length ∧
    (parts_manager_loop s p).part.size < p + 1024 ∧
    (p % 1024 = 0 → (parts_manager_loop s p).part.size ≤ p) := by
  obtain ⟨k, hkle, heq, hshort, hstop, hbound, hdvd⟩ := parts_manager_loop_spec s p
  rw [heq]
  refine ⟨?_, hbound, ?_⟩
  · show k = (s.take k).length
    rw [List.length_take]
    omega
  · intro hmod
    show k ≤ p
    exact hdvd (Nat.dvd_of_mod_eq_zero hmod)

/-- Witness for the amended C3 theorem at the stream `[5, 6]` with the
1024-multiple part size 1024. -/
theorem parts_manager_loop_size_bounds_witness :
    (parts_manager_loop [5, 6] 1024).part.size =
      (parts_manager_loop [5, 6] 1024).part.data.length ∧
    (parts_manager_loop [5, 6] 1024).part.size < 1024 + 1024 ∧
    (parts_manager_loop [5, 6] 1024).part.size ≤ 1024 :=
  ⟨(parts_manager_loop_size_bounds [5, 6] 1024).1,
   (parts_manager_loop_size_bounds [5, 6] 1024).2.1,
   (parts_manager_loop_size_bounds [5, 6] 1024).2.2 (by decide)⟩

/-- C10: `parts_manager` references the global `tempfile` on its first line,
but the module's imports never bind that name, so every call raises
`NameError` with the stream cursor untouched and no PartMetadata can ever be
produced. -/
theorem parts_manager_raises_name_error :
    helpersGlobals.contains tempfileName = false ∧
    ∀ (s : List Nat) (part_size : Nat),
      parts_manager s part_size = (s, Except.error (PyErr.nameError tempfileName)) := by
  have hcond : ¬ (helpersGlobals.contains tempfileName = true) := by decide
  refine ⟨by decide, fun s p => ?_⟩
  unfold parts_manager
  rw [if_neg hcond]

/-- Witness instantiating the C10 theorem at a concrete call. -/
theorem parts_manager_raises_name_error_witness :
    parts_manager [9] 5242880 = ([9], Except.error (PyErr.nameError tempfileName)) :=
  parts_manager_raises_name_error.2 [9] 5242880

/-- Totality of the lexicographic key order. -/
theorem lexLe_total (x y : List Char) : lexLe x y = true ∨ lexLe y x = true := by
  induction x generalizing y with
  | nil => exact Or.inl rfl
  | cons a as ih =>
    cases y with
    | nil => exact Or.inr rfl
    | cons b bs =>
      rcases lt_trichotomy a b with h | h | h
      · left
        simp [lexLe, h]
      · subst h
        rcases ih bs with h2 | h2
        · left
          simp [lexLe, lt_irrefl, h2]
        · right
          simp [lexLe, lt_irrefl, h2]
      · right
        simp [lexLe, h]

/-- Transitivity of the lexicographic key order. -/
theorem lexLe_trans (x y z : List Char) (hxy : lexLe x y = true) (hyz : lexLe y z = true) :
    lexLe x z = true := by
  induction x generalizing y z with
  | nil => rfl
  | cons a as ih =>
    cases y with
    | nil => simp [lexLe] at hxy
    | cons b bs =>
      cases z with
      | nil => simp [lexLe] at hyz
      | cons c cs =>
        simp only [lexLe] at hxy hyz ⊢
        rcases lt_trichotomy a b with hab | hab | hab
        · rcases lt_trichotomy b c with hbc | hbc | hbc
          · simp [lt_trans hab hbc]
          · subst hbc
            simp [hab]
          · rw [if_neg (lt_asymm hbc), if_pos hbc] at hyz
            simp at hyz
        · subst hab
          rcases lt_trichotomy a c with hac | hac | hac
          · simp [hac]
          · subst hac
            rw [if_neg (lt_irrefl a), if_neg (lt_irrefl a)] at hxy
            rw [if_neg (lt_irrefl a), if_neg (lt_irrefl a)] at hyz
            rw [if_neg (lt_irrefl a), if_neg (lt_irrefl a)]
            exact ih bs cs hxy hyz
          · rw [if_neg (lt_asymm hac), if_pos hac] at hyz
            simp at hyz
        · rw [if_neg (lt_asymm hab), if_pos hab] at hxy
          simp at hxy

/-- Antisymmetry of the lexicographic key order. -/
theorem lexLe_antisymm (x y : List Char) (hxy : lexLe x y = true) (hyx : lexLe y x = true) :
    x = y := by
  induction x generalizing y with
  | nil =>
    cases y with
    | nil => rfl
    | cons b bs => simp [lexLe] at hyx
  | cons a as ih =>
    cases y with
    | nil => simp [lexLe] at hxy
    | cons b bs =>
      simp only [lexLe] at hxy hyx
      rcases lt_trichotomy a b with hab | hab | hab
      · rw [if_neg (lt_asymm hab), if_pos hab] at hyx
        simp at hyx
      · subst hab
        rw [if_neg (lt_irrefl a), if_neg (lt_irrefl a)] at hxy
        rw [if_neg (lt_irrefl a), if_neg (lt_irrefl a)] at hyx
        rw [ih bs hxy hyx]
      · rw [if_neg (lt_asymm hab), if_pos hab] at hxy
        simp at hxy

/-- Transitivity of the item order. -/
theorem qLe_trans (a b c : QItem) (h1 : qLe a b = true) (h2 : qLe b c = true) :
    qLe a c = true :=
  lexLe_trans a.1 b.1 c.1 h1 h2

/-- Inserting into a list permutes consing onto it. -/
theorem insertQ_perm (x : QItem) (l : List QItem) : List.Perm (insertQ x l) (x :: l) := by
  induction l with
  | nil => exact List.Perm.refl _
  | cons y ys ih =>
    by_cases h : qLe x y = true
    · simp only [insertQ]
      rw [if_pos h]
    · simp only [insertQ]
      rw [if_neg h]
      exact (ih.cons y).trans (List.Perm.swap x y ys)

/-- Insertion preserves sortedness. -/
theorem insertQ_sorted (x : QItem) (l : List QItem)
    (hs : l.Pairwise (fun a b => qLe a b = true)) :
    (insertQ x l).Pairwise (fun a b => qLe a b = true) := by
  induction l with
  | nil => simp [insertQ]
  | cons y ys ih =>
    rcases List.pairwise_cons.mp hs with ⟨hy, hys⟩
    by_cases h : qLe x y = true
    · simp only [insertQ]
      rw [if_pos h]
      refine List.pairwise_cons.mpr ⟨?_, hs⟩
      intro z hz
      rcases List.mem_cons.mp hz with rfl | hz'
      · exact h
      · exact qLe_trans x y z h (hy z hz')
    · simp only [insertQ]
      rw [if_neg h]
      refine List.pairwise_cons.mpr ⟨?_, ih hys⟩
      intro z hz
      have hz2 := (insertQ_perm x ys).mem_iff.mp hz
      rcases List.mem_cons.mp hz2 with rfl | hz'
      · rcases lexLe_total z.1 y.1 with ht | ht
        · exact absurd ht h
        · exact ht
      · exact hy z hz'

/-- The sort permutes its input. -/
theorem sortQ_perm (l : List QItem) : List.Perm (sortQ l) l := by
  induction l with
  | nil => exact List.Perm.refl _
  | cons x xs ih => exact (insertQ_perm x (sortQ xs)).trans (ih.cons x)

/-- The sort sorts. -/
theorem sortQ_sorted (l : List QItem) : (sortQ l).Pairwise (fun a b => qLe a b = true) := by
  induction l with
  | nil => simp [sortQ]
  | cons x xs ih => exact insertQ_sorted x (sortQ xs) ih

/-- Two sorted permutations of one another with duplicate-free keys are
equal: with every key occurring once, sorting by key is unambiguous. -/
theorem sorted_nodup_keys_eq : ∀ (l₁ l₂ : List QItem), List.Perm l₁ l₂ →
    l₁.Pairwise (fun a b => qLe a b = true) → l₂.Pairwise (fun a b => qLe a b = true) →
    (l₁.map Prod.fst).Nodup → l₁ = l₂ := by
  intro l₁
  induction l₁ with
  | nil =>
    intro l₂ hp _ _ _
    exact hp.nil_eq
  | cons a t ih =>
    intro l₂ hp hs₁ hs₂ hnd
    cases l₂ with
    | nil => exact absurd hp.symm.nil_eq (by simp)
    | cons b t₂ =>
      rcases List.pairwise_cons.mp hs₁ with ⟨ha, hs₁'⟩
      rcases List.pairwise_cons.mp hs₂ with ⟨hb, hs₂'⟩
      have hnd' : a.1 ∉ t.map Prod.fst ∧ (t.map Prod.fst).Nodup := by
        rw [List.map_cons, List.nodup_cons] at hnd
        exact hnd
      have hab : a = b := by
        by_contra hne
        have hbmem : b ∈ a :: t := hp.symm.subset (List.mem_cons_self b t₂)
        have hamem : a ∈ b :: t₂ := hp.subset (List.mem_cons_self a t)
        have hbt : b ∈ t := by
          rcases List.mem_cons.mp hbmem with h | h
          · exact absurd h.symm hne
          · exact h
        have hat : a ∈ t₂ := by
          rcases List.mem_cons.mp hamem with h | h
          · exact absurd h hne
          · exact h
        have hkey : a.1 = b.1 := lexLe_antisymm a.1 b.1 (ha b hbt) (hb a hat)
        exact hnd'.1 (List.mem_map.mpr ⟨b, hbt, hkey.symm⟩)
      subst hab
      rw [ih t₂ hp.cons_inv hs₁' hs₂' hnd'.2]

/-- Sorting is insensitive to the input's insertion order when keys are
duplicate-free, as they are for items of a Python dict. -/
theorem sortQ_eq_of_perm (q₁ q₂ : List QItem) (hperm : List.Perm q₁ q₂)
    (hkeys : (q₁.map Prod.fst).Nodup) : sortQ q₁ = sortQ q₂ := by
  have hp : List.Perm (sortQ q₁) (sortQ q₂) :=
    (sortQ_perm q₁).trans (hperm.trans (sortQ_perm q₂).symm)
  have hmap : List.Perm ((sortQ q₁).map Prod.fst) (q₁.map Prod.fst) :=
    (sortQ_perm q₁).map Prod.fst
  exact sorted_nodup_keys_eq (sortQ q₁) (sortQ q₂) hp (sortQ_sorted q₁) (sortQ_sorted q₂)
    (hmap.symm.nodup hkeys)

/-- Characterization of the startswith test. -/
theorem listStartsWith_iff (pat : List Char) : ∀ s : List Char,
    listStartsWith s pat = true ↔ ∃ suf, s = pat ++ suf := by
  induction pat with
  | nil =>
    intro s
    constructor
    · intro _
      exact ⟨s, rfl⟩
    · intro _
      cases s <;> rfl
  | cons p ps ih =>
    intro s
    cases s with
    | nil =>
      simp [listStartsWith]
    | cons a as =>
      simp only [listStartsWith, Bool.and_eq_true, decide_eq_true_eq]
      constructor
      · rintro ⟨rfl, h2⟩
        obtain ⟨suf, hsuf⟩ := (ih as).mp h2
        exact ⟨suf, by rw [hsuf]; rfl⟩
      · rintro ⟨suf, hsuf⟩
        rw [List.cons_append] at hsuf
        injection hsuf with h1 h2
        exact ⟨h1, (ih as).mpr ⟨suf, h2⟩⟩

/-- Characterization of the substring test: Python's `pat in s` holds exactly
when `s` decomposes around a literal occurrence of `pat`. -/
theorem containsSub_iff (pat : List Char) : ∀ s : List Char,
    containsSub s pat = true ↔ ∃ pre suf, s = pre ++ pat ++ suf := by
  intro s
  induction s with
  | nil =>
    rw [show containsSub [] pat = listStartsWith [] pat from rfl, listStartsWith_iff]
    constructor
    · rintro ⟨suf, h⟩
      exact ⟨[], suf, by simpa using h⟩
    · rintro ⟨pre, suf, h⟩
      refine ⟨suf, ?_⟩
      have h' := h.symm
      rw [List.append_eq_nil] at h'
      obtain ⟨h1, h2⟩ := h'
      rw [List.append_eq_nil] at h1
      simp [h1.1, h1.2, h2]
  | cons c t ih =>
    simp only [containsSub, Bool.or_eq_true]
    rw [listStartsWith_iff, ih]
    constructor
    · rintro (⟨suf, h⟩ | ⟨pre, suf, h⟩)
      · exact ⟨[], suf, by simpa using h⟩
      · exact ⟨c :: pre, suf, by rw [h]; simp⟩
    · rintro ⟨pre, suf, h⟩
      cases pre with
      | nil => exact Or.inl ⟨suf, by simpa using h⟩
      | cons p pre' =>
        right
        rw [List.cons_append, List.cons_append] at h
        injection h with h1 h2
        exact ⟨pre', suf, h2⟩

/-- Characterization of the endswith test. -/
theorem listEndsWith_iff (s pat : List Char) :
    listEndsWith s pat = true ↔ ∃ pre, s = pre ++ pat := by
  unfold listEndsWith
  rw [listStartsWith_iff]
  constructor
  · rintro ⟨suf, h⟩
    refine ⟨suf.reverse, ?_⟩
    have h2 := congrArg List.reverse h
    simpa [List.reverse_append] using h2
  · rintro ⟨pre, h⟩
    exact ⟨pre.reverse, by rw [h, List.reverse_append]⟩

/-- C4: `get_target_url` is deterministic in the query mapping — two query
lists holding identical key/value entries in different insertion orders (with
keys duplicate-free, as Python dict keys are) yield identical URL strings,
and the rendered query items stand in sorted key order. -/
theorem get_target_url_deterministic (e : List Char) (b o : Option (List Char))
    (q₁ q₂ : List QItem) (hperm : List.Perm q₁ q₂)
    (hkeys : (q₁.map Prod.fst).Nodup) :
    get_target_url e b o (some q₁) = get_target_url e b o (some q₂) ∧
    (sortQ q₁).Pairwise (fun a b => lexLe a.1 b.1 = true) := by
  have hq : sortQ q₁ = sortQ q₂ := sortQ_eq_of_perm q₁ q₂ hperm hkeys
  have hqp : queryPartOf (some q₁) = queryPartOf (some q₂) := by
    simp only [queryPartOf, queryStringOf, hq]
  constructor
  · unfold get_target_url
    rw [hqp]
  · exact sortQ_sorted q₁

/-- Witness instantiating the C4 theorem on a two-entry query given in both
insertion orders. -/
theorem get_target_url_deterministic_witness :
    get_target_url (r"http://h").data none none
        (some [((r"b").data, none), ((r"a").data, some (r"x").data)]) =
      get_target_url (r"http://h").data none none
        (some [((r"a").data, some (r"x").data), ((r"b").data, none)]) ∧
    (sortQ [((r"b").data, none), ((r"a").data, some (r"x").data)]).Pairwise
      (fun a b => lexLe a.1 b.1 = true) :=
  get_target_url_deterministic (r"http://h").data none none
    [((r"b").data, none), ((r"a").data, some (r"x").data)]
    [((r"a").data, some (r"x").data), ((r"b").data, none)] (by decide) (by decide)

/-- C5: when a bucket is given, `get_target_url` builds a virtual-hosted
style URL `scheme://bucket.netloc/...` exactly when the endpoint's network
location contains `amazonaws.com` as a literal substring, and a path style
URL `scheme://netloc/bucket/...` otherwise; without a bucket the base is
`scheme://netloc`. -/
theorem get_target_url_addressing_style (e : List Char) (b : Option (List Char))
    (o : Option (List Char)) (q : Option (List QItem)) (out : List Char)
    (h : get_target_url e b o q = Except.ok out) :
    (∀ bn, b = some bn → (∃ pre suf, (urlsplit e).netloc = pre ++ amazonSuffix ++ suf) →
      ∃ rest, out = (urlsplit e).scheme ++ schemeSep ++ bn ++ '.' ::
        ((urlsplit e).netloc ++ '/' :: rest)) ∧
    (∀ bn, b = some bn → (¬ ∃ pre suf, (urlsplit e).netloc = pre ++ amazonSuffix ++ suf) →
      ∃ rest, out = (urlsplit e).scheme ++ schemeSep ++
        ((urlsplit e).netloc ++ '/' :: (bn ++ '/' :: rest))) ∧
    (b = none → ∃ rest, out = (urlsplit e).scheme ++ schemeSep ++
      ((urlsplit e).netloc ++ '/' :: rest)) := by
  have hout : ∃ tail, out = targetBase e b ++ '/' :: tail := by
    cases o with
    | none =>
      simp only [get_target_url] at h
      exact ⟨queryPartOf q, (Except.ok.inj h).symm⟩
    | some objName =>
      simp only [get_target_url] at h
      split at h
      · exact absurd h (by simp)
      · exact ⟨_ ++ queryPartOf q, (Except.ok.inj h).symm⟩
  obtain ⟨tail, htail⟩ := hout
  refine ⟨?_, ?_, ?_⟩
  · rintro bn rfl hsub
    have hcon : containsSub (urlsplit e).netloc amazonSuffix = true :=
      (containsSub_iff amazonSuffix (urlsplit e).netloc).mpr hsub
    refine ⟨tail, ?_⟩
    rw [htail]
    simp only [targetBase, hcon, if_true]
    simp [List.append_assoc]
  · rintro bn rfl hnsub
    have hcon : containsSub (urlsplit e).netloc amazonSuffix = false :=
      Bool.eq_false_iff.mpr fun hc =>
        hnsub ((containsSub_iff amazonSuffix (urlsplit e).netloc).mp hc)
    refine ⟨tail, ?_⟩
    rw [htail]
    simp only [targetBase, hcon]
    simp [List.append_assoc]
  · rintro rfl
    refine ⟨tail, ?_⟩
    rw [htail]
    simp only [targetBase]
    simp [List.append_assoc]

/-- Witness instantiating the C5 theorem: an amazonaws.com endpoint with a
bucket produces the virtual-hosted base. -/
theorem get_target_url_addressing_style_witness :
    ∃ rest, (r"s://b.amazonaws.com/").data =
      (urlsplit (r"s://amazonaws.com").data).scheme ++ schemeSep ++ (r"b").data ++ '.' ::
        ((urlsplit (r"s://amazonaws.com").data).netloc ++ '/' :: rest) := by
  have h : get_target_url (r"s://amazonaws.com").data (some (r"b").data) none none =
      Except.ok (r"s://b.amazonaws.com/").data := by decide
  exact (get_target_url_addressing_style (r"s://amazonaws.com").data
      (some (r"b").data) none none (r"s://b.amazonaws.com/").data h).1
    (r"b").data rfl ⟨[], [], by decide⟩

/-- C6: the two spec examples evaluate to exactly the stated URL strings:
virtual-hosted style with an encoded object key and sorted query for the AWS
endpoint, and path style with a valueless query flag for the local
endpoint. -/
theorem get_target_url_spec_examples :
    get_target_url (r"https://s3.amazonaws.com").data (some (r"mybucket").data)
      (some (r"a/b.txt").data)
      (some [((r"uploadId").data, some (r"123").data),
             ((r"partNumber").data, some (r"1").data)]) =
      Except.ok (r"https://mybucket.s3.amazonaws.com/a%2Fb.txt?partNumber=1&uploadId=123").data ∧
    get_target_url (r"https://minio.local:9000").data (some (r"mybucket").data) none
      (some [((r"acl").data, none)]) =
      Except.ok (r"https://minio.local:9000/mybucket/?acl").data := by
  constructor <;> decide

/-- The bucket pattern accepts exactly the strings consisting of an ASCII
letter, then one or more characters of `[A-Za-z0-9-]`, then a final ASCII
alphanumeric character — the language of
`^[a-zA-Z][a-zA-Z0-9\-]+[a-zA-Z0-9]$`. -/
theorem bucketFullMatch_iff (s : List Char) :
    bucketFullMatch s = true ↔
      ∃ c mid d, s = c :: (mid ++ [d]) ∧ isAsciiAlpha c = true ∧ mid ≠ [] ∧
        (∀ x ∈ mid, validLabelChar x = true) ∧ isAsciiAlnum d = true := by
  constructor
  · intro h
    cases s with
    | nil => simp [bucketFullMatch] at h
    | cons c rest =>
      rcases List.eq_nil_or_concat rest with rfl | ⟨mid, d, rfl⟩
      · simp [bucketFullMatch] at h
      · simp only [List.concat_eq_append, bucketFullMatch, Bool.and_eq_true,
          decide_eq_true_eq, List.dropLast_concat, List.getLast?_concat] at h
        obtain ⟨⟨⟨hc, hlen⟩, hmid⟩, hlast⟩ := h
        refine ⟨c, mid, d, by rw [List.concat_eq_append], hc, ?_, ?_, hlast⟩
        · intro hnil
          rw [hnil] at hlen
          simp at hlen
        · exact fun x hx => List.all_eq_true.mp hmid x hx
  · rintro ⟨c, mid, d, rfl, hc, hmidne, hall, hd⟩
    simp only [bucketFullMatch, Bool.and_eq_true, decide_eq_true_eq,
      List.dropLast_concat, List.getLast?_concat]
    refine ⟨⟨⟨hc, ?_⟩, List.all_eq_true.mpr hall⟩, hd⟩
    rw [List.length_append]
    have hpos := List.length_pos.mpr hmidne
    simp only [List.length_cons, List.length_nil]
    omega

/-- C8: `is_valid_bucket_name` returns True exactly when the name has no dot,
its length lies in [3, 63], and it fully matches
`^[A-Za-z][A-Za-z0-9-]+[A-Za-z0-9]$`; in every other case it raises
InvalidBucketError. -/
theorem is_valid_bucket_name_spec (s : List Char) :
    (is_valid_bucket_name s = Except.ok true ↔
      (¬ s.contains '.' = true ∧ 3 ≤ s.length ∧ s.length ≤ 63 ∧
        ∃ c mid d, s = c :: (mid ++ [d]) ∧ isAsciiAlpha c = true ∧ mid ≠ [] ∧
          (∀ x ∈ mid, validLabelChar x = true) ∧ isAsciiAlnum d = true)) ∧
    (is_valid_bucket_name s = Except.error PyErr.invalidBucket ↔
      (s.contains '.' = true ∨ s.length < 3 ∨ 63 < s.length ∨
        bucketFullMatch s = false)) := by
  have hpat := bucketFullMatch_iff s
  unfold is_valid_bucket_name
  by_cases h1 : s.contains '.' = true
  · rw [if_pos h1]
    constructor
    · constructor
      · intro h
        exact absurd h (by simp)
      · rintro ⟨hnd, _⟩
        exact absurd h1 hnd
    · constructor
      · intro _
        exact Or.inl h1
      · intro _
        rfl
  · rw [if_neg h1]
    by_cases h2 : (decide (s.length < 3) || decide (63 < s.length)) = true
    · rw [if_pos h2]
      simp only [Bool.or_eq_true, decide_eq_true_eq] at h2
      constructor
      · constructor
        · intro h
          exact absurd h (by simp)
        · rintro ⟨_, hl1, hl2, _⟩
          omega
      · constructor
        · intro _
          rcases h2 with h | h
          · exact Or.inr (Or.inl h)
          · exact Or.inr (Or.inr (Or.inl h))
        · intro _
          rfl
    · rw [if_neg h2]
      simp only [Bool.or_eq_true, decide_eq_true_eq, not_or] at h2
      obtain ⟨hl1, hl2⟩ := h2
      by_cases h3 : bucketFullMatch s = true
      · rw [if_neg (by rw [h3]; simp)]
        constructor
        · constructor
          · intro _
            exact ⟨fun hc => absurd hc h1, by omega, by omega, hpat.mp h3⟩
          · intro _
            rfl
        · constructor
          · intro h
            exact absurd h (by simp)
          · rintro (hc | hl | hl | hb)
            · exact absurd hc h1
            · omega
            · omega
            · rw [h3] at hb
              exact absurd hb (by simp)
      · have h3' : bucketFullMatch s = false := Bool.eq_false_iff.mpr h3
        rw [if_pos (by rw [h3']; rfl)]
        constructor
        · constructor
          · intro h
            exact absurd h (by simp)
          · rintro ⟨_, _, _, hex⟩
            exact absurd (hpat.mpr hex) h3
        · constructor
          · intro _
            exact Or.inr (Or.inr (Or.inr h3'))
          · intro _
            rfl

/-- Witness instantiating the C8 theorem: the name `abc` is accepted and
satisfies all three constraints. -/
theorem is_valid_bucket_name_spec_witness :
    ¬ (r"abc").data.contains '.' = true ∧ 3 ≤ (r"abc").data.length ∧
      (r"abc").data.length ≤ 63 ∧
      ∃ c mid d, (r"abc").data = c :: (mid ++ [d]) ∧ isAsciiAlpha c = true ∧ mid ≠ [] ∧
        (∀ x ∈ mid, validLabelChar x = true) ∧ isAsciiAlnum d = true :=
  ((is_valid_bucket_name_spec (r"abc").data).1).mp (by decide)

/-- Splitting never yields the empty list of pieces. -/
theorem splitOnDotL_ne_nil (s : List Char) : splitOnDotL s ≠ [] := by
  induction s with
  | nil => simp [splitOnDotL]
  | cons c t ih =>
    simp only [splitOnDotL]
    by_cases h : c = '.'
    · simp [h]
    · rw [if_neg h]
      cases hs : splitOnDotL t with
      | nil => simp
      | cons g gs => simp

/-- Joining the dot-split pieces restores the string. -/
theorem joinDots_splitOnDotL (s : List Char) : joinDots (splitOnDotL s) = s := by
  induction s with
  | nil => rfl
  | cons c t ih =>
    simp only [splitOnDotL]
    by_cases h : c = '.'
    · rw [if_pos h]
      cases hs : splitOnDotL t with
      | nil => exact absurd hs (splitOnDotL_ne_nil t)
      | cons g gs =>
        rw [hs] at ih
        simp only [joinDots, List.nil_append]
        rw [ih, h]
    · rw [if_neg h]
      cases hs : splitOnDotL t with
      | nil => exact absurd hs (splitOnDotL_ne_nil t)
      | cons g gs =>
        rw [hs] at ih
        cases gs with
        | nil =>
          simp only [joinDots] at ih ⊢
          rw [ih]
        | cons g2 gs2 =>
          simp only [joinDots] at ih ⊢
          rw [List.cons_append, ih]

/-- Splitting a dot-free string yields that single piece. -/
theorem splitOnDotL_no_dot (l : List Char) (h : ∀ x ∈ l, ¬ x = '.') :
    splitOnDotL l = [l] := by
  induction l with
  | nil => rfl
  | cons c t ih =>
    have hc : ¬ c = '.' := h c (List.mem_cons_self c t)
    simp only [splitOnDotL]
    rw [if_neg hc, ih (fun x hx => h x (List.mem_cons_of_mem c hx))]

/-- Splitting a string beginning with a dot-free piece and a dot peels that
piece off. -/
theorem splitOnDotL_append (l rest : List Char) (h : ∀ x ∈ l, ¬ x = '.') :
    splitOnDotL (l ++ '.' :: rest) = l :: splitOnDotL rest := by
  induction l with
  | nil => simp [splitOnDotL]
  | cons c t ih =>
    have hc : ¬ c = '.' := h c (List.mem_cons_self c t)
    show splitOnDotL (c :: (t ++ '.' :: rest)) = (c :: t) :: splitOnDotL rest
    simp only [splitOnDotL]
    rw [if_neg hc, ih (fun x hx => h x (List.mem_cons_of_mem c hx))]

/-- Splitting inverts joining on non-empty lists of dot-free pieces. -/
theorem splitOnDotL_joinDots : ∀ (labels : List (List Char)), labels ≠ [] →
    (∀ l ∈ labels, ∀ x ∈ l, ¬ x = '.') → splitOnDotL (joinDots labels) = labels := by
  intro labels
  induction labels with
  | nil =>
    intro h _
    exact absurd rfl h
  | cons l ls ih =>
    intro _ hdots
    cases ls with
    | nil =>
      simp only [joinDots]
      exact splitOnDotL_no_dot l (hdots l (List.mem_cons_self l []))
    | cons l2 ls2 =>
      simp only [joinDots]
      rw [splitOnDotL_append l (joinDots (l2 :: ls2)) (hdots l (List.mem_cons_self l _))]
      rw [ih (by simp) (fun m hm => hdots m (List.mem_cons_of_mem l hm))]

/-- Label characters are never the dot. -/
theorem validLabelChar_ne_dot (c : Char) (h : validLabelChar c = true) : ¬ c = '.' := by
  intro hc
  subst hc
  exact absurd h (by decide)

/-- The hostname pattern accepts exactly the strings that decompose into a
non-empty sequence of dot-separated valid labels — the language of
`^((?!-)[A-Z\d-]{1,63}(?<!-)\.)*((?!-)[A-Z\d-]{1,63}(?<!-))$` under
`re.IGNORECASE`. -/
theorem hostLabelsMatch_iff (h : List Char) :
    hostLabelsMatch h = true ↔
      ∃ labels, labels ≠ [] ∧ h = joinDots labels ∧ ∀ l ∈ labels, validLabel l = true := by
  constructor
  · intro hm
    refine ⟨splitOnDotL h, splitOnDotL_ne_nil h, (joinDots_splitOnDotL h).symm, ?_⟩
    exact fun l hl => List.all_eq_true.mp hm l hl
  · rintro ⟨labels, hne, rfl, hall⟩
    unfold hostLabelsMatch
    have hdots : ∀ l ∈ labels, ∀ x ∈ l, ¬ x = '.' := by
      intro l hl x hx
      have hv := hall l hl
      simp only [validLabel, Bool.and_eq_true] at hv
      exact validLabelChar_ne_dot x (List.all_eq_true.mp hv.1.1.2 x hx)
    rw [splitOnDotL_joinDots labels hne hdots]
    exact List.all_eq_true.mpr hall

/-- Truthiness of the line-136 match call in declarative terms: the hostname
matches when it decomposes into valid dot-separated labels, or when it is
such a decomposition followed by one trailing newline (the unguarded `$`
quirk). -/
theorem hostPatternMatch_iff (h : List Char) :
    hostPatternMatch h = true ↔
      ((∃ labels, labels ≠ [] ∧ h = joinDots labels ∧
          ∀ l ∈ labels, validLabel l = true) ∨
        (h.getLast? = some '\n' ∧
          ∃ labels, labels ≠ [] ∧ h.dropLast = joinDots labels ∧
            ∀ l ∈ labels, validLabel l = true)) := by
  unfold hostPatternMatch
  rw [Bool.or_eq_true, Bool.and_eq_true, decide_eq_true_eq, hostLabelsMatch_iff,
    hostLabelsMatch_iff]

/-- Endpoint validation for a parsed hostname runs the hostname checks. -/
theorem is_valid_endpoint_eq (e host : List Char) (hh : hostnameOf e = some host) :
    is_valid_endpoint e = is_valid_hostname host := by
  unfold is_valid_endpoint
  rw [hh]

/-- The hostname checks return True or raise InvalidEndpointError; no other
outcome exists. -/
theorem is_valid_hostname_cases (host : List Char) :
    is_valid_hostname host = Except.ok true ∨
      is_valid_hostname host = Except.error PyErr.invalidEndpoint := by
  unfold is_valid_hostname
  by_cases h1 : 255 < host.length
  · rw [if_pos h1]
    exact Or.inr rfl
  · rw [if_neg h1]
    by_cases h2 : (!hostPatternMatch (stripTrailingDot host)) = true
    · rw [if_pos h2]
      exact Or.inr rfl
    · rw [if_neg h2]
      by_cases h3 : (listEndsWith (stripTrailingDot host) amazonSuffix &&
          !decide (stripTrailingDot host = s3Host)) = true
      · rw [if_pos h3]
        exact Or.inr rfl
      · rw [if_neg h3]
        exact Or.inl rfl

/-- Acceptance condition of the hostname checks, in terms of the model's
Boolean predicates. -/
theorem is_valid_hostname_ok_iff (host : List Char) :
    is_valid_hostname host = Except.ok true ↔
      (host.length ≤ 255 ∧ hostPatternMatch (stripTrailingDot host) = true ∧
        ¬ (listEndsWith (stripTrailingDot host) amazonSuffix = true ∧
          ¬ stripTrailingDot host = s3Host)) := by
  unfold is_valid_hostname
  by_cases h1 : 255 < host.length
  · rw [if_pos h1]
    constructor
    · intro h
      exact absurd h (by simp)
    · rintro ⟨hl, _⟩
      omega
  · rw [if_neg h1]
    by_cases h2 : hostPatternMatch (stripTrailingDot host) = true
    · rw [if_neg (by rw [h2]; simp)]
      by_cases h3 : listEndsWith (stripTrailingDot host) amazonSuffix = true
      · by_cases h4 : stripTrailingDot host = s3Host
        · rw [if_neg (by simp [h4])]
          constructor
          · intro _
            exact ⟨by omega, h2, fun hcon => hcon.2 h4⟩
          · intro _
            rfl
        · rw [if_pos (by simp [h3, h4])]
          constructor
          · intro h
            exact absurd h (by simp)
          · rintro ⟨_, _, hcon⟩
            exact absurd ⟨h3, h4⟩ hcon
      · rw [if_neg (by simp [Bool.eq_false_iff.mpr h3])]
        constructor
        · intro _
          exact ⟨by omega, h2, fun hcon => h3 hcon.1⟩
        · intro _
          rfl
    · rw [if_pos (by simp [Bool.eq_false_iff.mpr h2])]
      constructor
      · intro h
        exact absurd h (by simp)
      · rintro ⟨_, hm, _⟩
        exact absurd hm h2

/-- C9 (amended): `is_valid_endpoint` returns True exactly when the
endpoint's parsed hostname exists, has at most 255 characters, after
stripping one trailing dot either decomposes into dot-separated labels of 1
to 63 characters of `[A-Za-z0-9-]` with no leading or trailing hyphen or is
such a decomposition followed by one trailing newline (line 136 calls
`allowed.match` with no `match.end()` guard, and Python's `$` also matches
before one trailing newline), and does not end in `amazonaws.com`, except
for exactly the host `s3.amazonaws.com`; in every other case, including an
absent hostname, it raises InvalidEndpointError.  The 255-character bound is
the source's check on the hostname before the trailing dot is stripped. -/
theorem is_valid_endpoint_spec (e : List Char) :
    (is_valid_endpoint e = Except.ok true ↔
      ∃ host, hostnameOf e = some host ∧ host.length ≤ 255 ∧
        ((∃ labels, labels ≠ [] ∧ stripTrailingDot host = joinDots labels ∧
            ∀ l ∈ labels, validLabel l = true) ∨
          ((stripTrailingDot host).getLast? = some '\n' ∧
            ∃ labels, labels ≠ [] ∧ (stripTrailingDot host).dropLast = joinDots labels ∧
              ∀ l ∈ labels, validLabel l = true)) ∧
        ((¬ ∃ pre, stripTrailingDot host = pre ++ amazonSuffix) ∨
          stripTrailingDot host = s3Host)) ∧
    (is_valid_endpoint e = Except.error PyErr.invalidEndpoint ↔
      ¬ ∃ host, hostnameOf e = some host ∧ host.length ≤ 255 ∧
        ((∃ labels, labels ≠ [] ∧ stripTrailingDot host = joinDots labels ∧
            ∀ l ∈ labels, validLabel l = true) ∨
          ((stripTrailingDot host).getLast? = some '\n' ∧
            ∃ labels, labels ≠ [] ∧ (stripTrailingDot host).dropLast = joinDots labels ∧
              ∀ l ∈ labels, validLabel l = true)) ∧
        ((¬ ∃ pre, stripTrailingDot host = pre ++ amazonSuffix) ∨
          stripTrailingDot host = s3Host)) := by
  have hA : (∃ host, hostnameOf e = some host ∧ host.length ≤ 255 ∧
      ((∃ labels, labels ≠ [] ∧ stripTrailingDot host = joinDots labels ∧
          ∀ l ∈ labels, validLabel l = true) ∨
        ((stripTrailingDot host).getLast? = some '\n' ∧
          ∃ labels, labels ≠ [] ∧ (stripTrailingDot host).dropLast = joinDots labels ∧
            ∀ l ∈ labels, validLabel l = true)) ∧
      ((¬ ∃ pre, stripTrailingDot host = pre ++ amazonSuffix) ∨
        stripTrailingDot host = s3Host)) ↔ is_valid_endpoint e = Except.ok true := by
    constructor
    · rintro ⟨host, hh, hlen, hlab, hamz⟩
      rw [is_valid_endpoint_eq e host hh, is_valid_hostname_ok_iff host]
      refine ⟨hlen, (hostPatternMatch_iff _).mpr hlab, ?_⟩
      rintro ⟨hends, hne⟩
      rcases hamz with hnp | hs3
      · exact hnp ((listEndsWith_iff _ _).mp hends)
      · exact hne hs3
    · intro hok
      cases hh : hostnameOf e with
      | none =>
        have herr : is_valid_endpoint e = Except.error PyErr.invalidEndpoint := by
          unfold is_valid_endpoint
          rw [hh]
        rw [herr] at hok
        exact absurd hok (by simp)
      | some host =>
        rw [is_valid_endpoint_eq e host hh, is_valid_hostname_ok_iff host] at hok
        obtain ⟨hlen, hlab, hamz⟩ := hok
        refine ⟨host, rfl, hlen, (hostPatternMatch_iff _).mp hlab, ?_⟩
        by_cases h4 : stripTrailingDot host = s3Host
        · exact Or.inr h4
        · left
          rintro ⟨pre, hpre⟩
          exact hamz ⟨(listEndsWith_iff _ _).mpr ⟨pre, hpre⟩, h4⟩
  refine ⟨hA.symm, ?_, ?_⟩
  · intro herr hcond
    have hok := hA.mp hcond
    rw [herr] at hok
    exact absurd hok (by simp)
  · intro hncond
    cases hh : hostnameOf e with
    | none =>
      unfold is_valid_endpoint
      rw [hh]
    | some host =>
      rw [is_valid_endpoint_eq e host hh]
      rcases is_valid_hostname_cases host with hok | herr
      · exact absurd (hA.mpr (by rw [is_valid_endpoint_eq e host hh]; exact hok)) hncond
      · exact herr

/-- C9 counterexample: the endpoint `https://abc` followed by a newline
parses to the hostname `abc` plus that newline, which fails the DNS-label
pattern as the claim states it (no label decomposition exists, and stripping
a trailing dot changes nothing), yet `is_valid_endpoint` accepts it, because
the unguarded line-136 match lets `$` match before the trailing newline.
The claim's assertion that every endpoint violating the pattern condition
raises InvalidEndpointError is therefore false here. -/
theorem is_valid_endpoint_newline_cex :
    is_valid_endpoint newlineEndpoint = Except.ok true ∧
    hostnameOf newlineEndpoint = some newlineHost ∧
    stripTrailingDot newlineHost = newlineHost ∧
    ¬ ∃ labels, labels ≠ [] ∧ newlineHost = joinDots labels ∧
        ∀ l ∈ labels, validLabel l = true := by
  refine ⟨by decide, by decide, by decide, fun hex => ?_⟩
  have hm := (hostLabelsMatch_iff newlineHost).mpr hex
  exact absurd hm (by decide)

/-- Witness instantiating the amended C9 theorem: `https://abc.xyz` has
hostname `abc.xyz`, two valid labels with no trailing newline involved, and
no AWS suffix, so validation accepts it. -/
theorem is_valid_endpoint_spec_witness :
    is_valid_endpoint (r"https://abc.xyz").data = Except.ok true :=
  ((is_valid_endpoint_spec (r"https://abc.xyz").data).1).mpr
    ⟨(r"abc.xyz").data, by decide, by decide,
      Or.inl ⟨[(r"abc").data, (r"xyz").data], by decide, by decide, by decide⟩,
      Or.inl (by
        rintro ⟨pre, hpre⟩
        have hlen := congrArg List.length hpre
        rw [List.length_append] at hlen
        have h13 : amazonSuffix.length = 13 := by decide
        have h7 : (stripTrailingDot (r"abc.xyz").data).length = 7 := by decide
        omega)⟩

/-- C7: `calculate_part_size` returns the 5 GiB maximum for the unknown
length -1; the 5 MiB minimum for length 0; exactly the 5 GiB maximum for
every non-negative length whose 1/9999 share exceeds 5 GiB; and
`max(5 MiB, totalLength / 9999)` for every other non-negative length. -/
theorem calculate_part_size_spec :
    calculate_part_size (-1) = 5368709120 ∧
    calculate_part_size 0 = 5242880 ∧
    (∀ l : ℚ, 0 ≤ l → l / 9999 > 5368709120 → calculate_part_size l = 5368709120) ∧
    (∀ l : ℚ, 0 ≤ l → ¬ l / 9999 > 5368709120 →
      calculate_part_size l = max 5242880 (l / 9999)) := by
  refine ⟨?_, ?_, ?_, ?_⟩
  · rw [calculate_part_size, if_pos rfl, maximum_part_size]
  · rw [calculate_part_size, if_neg (by norm_num),
      if_neg (by rw [maximum_part_size]; norm_num)]
    rw [minimum_part_size]
    norm_num
  · intro l hl hgt
    have hne : ¬ (l = -1) := by
      intro h
      rw [h] at hl
      norm_num at hl
    rw [calculate_part_size, if_neg hne,
      if_pos (by rw [maximum_part_size]; exact hgt), maximum_part_size]
  · intro l hl hle
    have hne : ¬ (l = -1) := by
      intro h
      rw [h] at hl
      norm_num at hl
    rw [calculate_part_size, if_neg hne,
      if_neg (by rw [maximum_part_size]; exact hle), minimum_part_size]

/-- Witness instantiating the C7 theorem: a 10^16-byte length saturates at
the 5 GiB maximum. -/
theorem calculate_part_size_spec_witness :
    calculate_part_size (10 ^ 16) = 5368709120 :=
  calculate_part_size_spec.2.2.1 (10 ^ 16) (by norm_num) (by norm_num)
